import Mathlib

/-!
Shallow embedding of the genetic_engine analysis core of the
physiological-g-code repository, together with theorems settling the
claims about its sequence-to-symbol translation pipeline and its
pattern / comparison analysis engine.

Sources embedded:
- src/genetic_engine/codon_translator.py   (CodonTranslator)
- src/genetic_engine/hexagram_mapper.py    (HexagramMapper)
- src/genetic_engine/pattern_analyzer.py   (PatternAnalyzer)
- src/genetic_engine/comparative_analyzer.py (ComparativeAnalyzer)

Modelling conventions:
- Python strings are `List Char`; `str.upper` is modelled with
  `Char.toUpper` (identical on the ASCII inputs the translator cares
  about).
- Symbol sequences are `List Int` (the code compares entries with
  `> 0` / `<= 0`, and 0 is the sentinel for an untranslatable codon).
- Scores that Python computes with float division are modelled with `ℚ`
  (exact field arithmetic); float-only outputs with no claim attached
  (Shannon entropies, cosine similarity, Pearson correlations, which
  need `log` / `sqrt`) are omitted from the embedded result records and
  noted where that happens.
- A Python function that can return a dict carrying an `error` key is
  modelled with an explicit error constructor; a Python call that can
  raise is modelled with an explicit `raised`-style constructor.
- Python `dict` / `collections.Counter` values are association lists in
  insertion order, which reproduces dict iteration order and the
  stable tie-breaking of `Counter.most_common`.
-/

namespace GCode

/-! ### Generic helpers shared by several embedded modules -/

/-- Insertion-ordered counter update: `Counter[a] += 1` on an association
list, incrementing an existing key in place or appending a fresh key. -/
def countAdd {α : Type} [DecidableEq α] (m : List (α × Nat)) (a : α) : List (α × Nat) :=
  if m.any (fun p => p.1 = a) then
    m.map (fun p => if p.1 = a then (p.1, p.2 + 1) else p)
  else m ++ [(a, 1)]

/-- `collections.Counter(l)` as an insertion-ordered association list. -/
def counterList {α : Type} [DecidableEq α] (l : List α) : List (α × Nat) :=
  l.foldl countAdd []

/-- `Counter.most_common(1)[0]`: the first key of maximal count, in
insertion order (Python's sort is stable, so ties keep the earlier key). -/
def mostCommon1 {α : Type} (m : List (α × Nat)) : Option (α × Nat) :=
  m.foldl (fun acc p =>
    match acc with
    | none => some p
    | some q => if q.2 < p.2 then some p else some q) none

/-- All bit strings of a given length, as lists of the characters
`'0'` and `'1'` (used to quantify over the 64 six-bit inputs). -/
def allBitStrings : Nat → List (List Char)
  | 0 => [[]]
  | n + 1 =>
      (allBitStrings n).map (fun s => '0' :: s) ++
      (allBitStrings n).map (fun s => '1' :: s)

/-- The numeric value of a bit string read left to right,
as `int(binary, 2)` computes it on a well-formed input. -/
def bitsVal (b : List Char) : Nat :=
  b.foldl (fun a c => 2 * a + (if c = '1' then 1 else 0)) 0

/-- Python `int(binary, 2)`: `some` value on a non-empty string of
`'0'`/`'1'` characters, `none` (ValueError) otherwise. -/
def parseBinary (b : List Char) : Option Nat :=
  if b ≠ [] ∧ ∀ c ∈ b, c = '0' ∨ c = '1' then some (bitsVal b) else none

/-- Bit characters as numeric bits (for comparing a bit string with a
stored hexagram line pattern). -/
def bitsOfChars (b : List Char) : List Nat :=
  b.map (fun c => if c = '1' then 1 else 0)

namespace CodonTranslator

/-! ### Embedding of src/genetic_engine/codon_translator.py -/

/-- BINARY_SCHEMES entry scheme_1 (purine/pyrimidine based), including
the `.get(base, '0')` fallback for unknown characters. -/
def schemeMap1 (c : Char) : Char :=
  if c = 'A' then '0' else if c = 'T' then '0' else if c = 'G' then '1'
  else if c = 'C' then '1' else if c = 'U' then '0' else '0'

/-- BINARY_SCHEMES entry scheme_2 (AT/GC alternation). -/
def schemeMap2 (c : Char) : Char :=
  if c = 'A' then '0' else if c = 'T' then '1' else if c = 'G' then '0'
  else if c = 'C' then '1' else if c = 'U' then '1' else '0'

/-- BINARY_SCHEMES entry scheme_3 (hydrogen bond count). -/
def schemeMap3 (c : Char) : Char :=
  if c = 'A' then '0' else if c = 'T' then '0' else if c = 'G' then '1'
  else if c = 'C' then '1' else if c = 'U' then '0' else '0'

/-- BINARY_SCHEMES entry scheme_4 (molecular weight based). -/
def schemeMap4 (c : Char) : Char :=
  if c = 'A' then '0' else if c = 'G' then '1' else if c = 'C' then '0'
  else if c = 'T' then '1' else if c = 'U' then '1' else '0'

/-- Scheme lookup as done in `CodonTranslator.__init__`:
`BINARY_SCHEMES.get(mapping_scheme, BINARY_SCHEMES['scheme_1'])`. -/
def BINARY_SCHEMES (name : String) : Char → Char :=
  if name = "scheme_1" then schemeMap1
  else if name = "scheme_2" then schemeMap2
  else if name = "scheme_3" then schemeMap3
  else if name = "scheme_4" then schemeMap4
  else schemeMap1

/-- `codon_to_binary`: upper-case the codon and map every character
through the scheme table (one bit per character, unknown characters
default to `'0'`). -/
def codon_to_binary (scheme : Char → Char) (codon : List Char) : List Char :=
  (codon.map Char.toUpper).map scheme

/-- `binary_to_hexagram_number`: `int(binary, 2) + 1`, or `None` when
`int` raises on a malformed string.  Note there is no reversal here. -/
def binary_to_hexagram_number (binary : List Char) : Option Nat :=
  (parseBinary binary).map (· + 1)

/-- `translate_codon`: codon to bits to symbol number. -/
def translate_codon (scheme : Char → Char) (codon : List Char) : Option Nat :=
  binary_to_hexagram_number (codon_to_binary scheme codon)

/-- The normalization done at the top of `translate_sequence`:
`sequence.upper().replace(' ', '')` — upper-case, then drop space
characters only. -/
def normalizeSeq (s : List Char) : List Char :=
  (s.map Char.toUpper).filter (fun c => c ≠ ' ')

/-- The codon split `[sequence[i:i+3] for i in range(0, len(sequence), 3)]`:
consecutive 3-character chunks plus the non-empty trailing partial chunk. -/
def chunks3 : List Char → List (List Char)
  | [] => []
  | [a] => [[a]]
  | [a, b] => [[a, b]]
  | a :: b :: c :: rest => [a, b, c] :: chunks3 rest

/-- Python truthiness applied to the result of `translate_codon`:
`hexagrams.append(hexagram_num if hexagram_num else 0)` in effect. -/
def hexOrZero (o : Option Nat) : Int :=
  match o with
  | some n => if n = 0 then 0 else (n : Int)
  | none => 0

/-- `translate_sequence`: normalize, split into codons, translate each
complete (3-character) codon, drop the trailing partial codon. -/
def translate_sequence (scheme : Char → Char) (s : List Char) : List Int :=
  (chunks3 (normalizeSeq s)).filterMap (fun codon =>
    if codon.length = 3 then some (hexOrZero (translate_codon scheme codon)) else none)

end CodonTranslator

namespace HexagramMapper

/-! ### Embedding of src/genetic_engine/hexagram_mapper.py -/

/-- HEXAGRAM_BINARY_DATA: the King Wen line patterns actually present in
the source — entries 1 through 8 only (the source comment reads
"... (would include all 64 hexagrams)" but the literal stops at 8). -/
def HEXAGRAM_BINARY_DATA : List (Nat × List Nat) :=
  [ (1, [1, 1, 1, 1, 1, 1]),
    (2, [0, 0, 0, 0, 0, 0]),
    (3, [1, 0, 0, 0, 0, 1]),
    (4, [0, 1, 1, 1, 1, 0]),
    (5, [0, 1, 1, 0, 1, 0]),
    (6, [0, 1, 0, 1, 1, 0]),
    (7, [0, 0, 0, 1, 0, 0]),
    (8, [0, 0, 1, 0, 0, 0]) ]

/-- `get_hexagram_binary`: `HEXAGRAM_BINARY_DATA.get(hexagram_number)`. -/
def get_hexagram_binary (n : Nat) : Option (List Nat) :=
  (HEXAGRAM_BINARY_DATA.find? (fun p => p.1 = n)).map (·.2)

/-- `HexagramMapper.binary_to_hexagram_number`: scan the table in
insertion order for a matching line pattern. -/
def binary_to_hexagram_number (binary : List Nat) : Option Nat :=
  (HEXAGRAM_BINARY_DATA.find? (fun p => p.2 = binary)).map (·.1)

/-- `map_codon_binary_to_hexagram`: reverse the bit string (hexagram
lines read bottom-to-top), turn every character into a digit, and look
the pattern up; `None` on a non-digit character (ValueError). -/
def map_codon_binary_to_hexagram (codonBinary : List Char) : Option Nat :=
  if ∀ c ∈ codonBinary, c.isDigit then
    binary_to_hexagram_number (codonBinary.reverse.map (fun c => c.toNat - 48))
  else none

/-- `map_codon_to_hexagram`: codon to bits under the named scheme, then
table lookup. -/
def map_codon_to_hexagram (codon : List Char) (scheme : String) : Option Nat :=
  map_codon_binary_to_hexagram
    (CodonTranslator.codon_to_binary (CodonTranslator.BINARY_SCHEMES scheme) codon)

/-- `batch_map_codons`: custom-mapping branch uses
`mapping.get(codon.upper(), 0)`; the scheme branch appends
`hexagram if hexagram else 0`. -/
def batch_map_codons (codons : List (List Char))
    (mapping : Option (List (List Char × Nat))) (scheme : String) : List Int :=
  match mapping with
  | some m =>
      codons.map (fun c =>
        ((((m.find? (fun p => p.1 = c.map Char.toUpper)).map (·.2)).getD 0 : Nat) : Int))
  | none =>
      codons.map (fun c =>
        match map_codon_to_hexagram c scheme with
        | some h => if h = 0 then 0 else (h : Int)
        | none => 0)

end HexagramMapper

namespace PatternAnalyzer

/-! ### Embedding of src/genetic_engine/pattern_analyzer.py

Fields of the Python result dicts that are float-only (Shannon
entropies, which need `log`) are not carried in the embedded records;
every claim-relevant field is. -/

/-- The per-position bias of `analyze_position_patterns`: the
chi-square-style sum over the frequency distribution of the hexagrams
grouped at one position. -/
def biasOf (hexs : List Int) : ℚ :=
  let counts := counterList hexs
  let total : ℚ := hexs.length
  (counts.map (fun p => ((p.2 : ℚ) / total - 1 / 64) ^ 2 / (1 / 64))).sum

/-- Grouping step of `analyze_position_patterns`: append a hexagram to
the list stored at a position key, inserting the key if absent
(`defaultdict(list)` in insertion order). -/
def groupAppend (m : List (Nat × List Int)) (p : Nat) (h : Int) : List (Nat × List Int) :=
  if m.any (fun q => q.1 = p) then
    m.map (fun q => if q.1 = p then (q.1, q.2 ++ [h]) else q)
  else m ++ [(p, [h])]

/-- `position_hexagrams`: zip the sequence with its positions and group
the non-sentinel hexagrams by position. -/
def positionHexagrams (seq : List Int) (positions : List Nat) : List (Nat × List Int) :=
  (seq.zip positions).foldl
    (fun m ph => if 0 < ph.1 then groupAppend m ph.2 ph.1 else m) []

/-- The non-error payload of `analyze_position_patterns`. -/
structure PosReport where
  positionalBias : List (Nat × ℚ)
  averageBias : ℚ
  highBiasPositions : List (Nat × ℚ)
  dominantAtPosition : List (Nat × Int × ℚ)

/-- Result of `analyze_position_patterns`: an error-keyed dict on empty
input, otherwise the report. -/
inductive PosResult
  | err (msg : String)
  | ok (r : PosReport)

/-- `analyze_position_patterns`: positions default to `1..len(seq)`;
hexagrams are grouped by position (sentinels skipped), the groups are
iterated in sorted key order, and a position's bias beyond twice the
average flags it high-bias. -/
def analyze_position_patterns (seq : List Int) (codonPositions : Option (List Nat)) :
    PosResult :=
  if seq = [] then .err "Empty sequence provided"
  else
    let positions := codonPositions.getD (List.range' 1 seq.length)
    let grouped := positionHexagrams seq positions
    let sorted := grouped.insertionSort (fun a b => a.1 ≤ b.1)
    let entries := sorted.map (fun pg =>
      let counts := counterList pg.2
      let dom := (mostCommon1 counts).getD (0, 0)
      (pg.1, biasOf pg.2, dom.1, ((dom.2 : ℚ) / (pg.2.length : ℚ))))
    let biases := entries.map (fun e => (e.1, e.2.1))
    let avg : ℚ := if biases = [] then 0 else (biases.map (·.2)).sum / (biases.length : ℚ)
    .ok { positionalBias := biases
          averageBias := avg
          highBiasPositions := biases.filter (fun b => 2 * avg < b.2)
          dominantAtPosition := entries.map (fun e => (e.1, e.2.2.1, e.2.2.2)) }

/-- Projection used to state claims: the positional_bias entries (empty
for the error dict). -/
def posBiasOf (r : PosResult) : List (Nat × ℚ) :=
  match r with
  | .err _ => []
  | .ok rep => rep.positionalBias

/-- Projection used to state claims: the high_bias_positions entries
(empty for the error dict). -/
def highBiasOf (r : PosResult) : List (Nat × ℚ) :=
  match r with
  | .err _ => []
  | .ok rep => rep.highBiasPositions

/-- The non-error payload of `sliding_window_analysis` when at least one
window pattern was counted (the `pattern_entropy` float is omitted). -/
structure WindowReport where
  windowSize : Nat
  stepSize : Nat
  totalWindows : Nat
  uniquePatterns : Nat
  patternCounts : List (List Int × Nat)
  patternFrequencies : List (List Int × ℚ)
  windowStartPositions : List Nat

/-- Result of `sliding_window_analysis`: an explicit error dict, a
raised exception (only Python `range` with step 0 can raise here), the
zero-count dict when no window was all-valid, or the full report. -/
inductive WindowResult
  | errorField (msg : String)
  | raised
  | okEmpty (windowSize stepSize : Nat)
  | ok (r : WindowReport)

/-- Whether a `WindowResult` is the explicit-error dict. -/
def WindowResult.isError : WindowResult → Bool
  | .errorField _ => true
  | _ => false

/-- Whether a `WindowResult` models a raised exception. -/
def WindowResult.isRaised : WindowResult → Bool
  | .raised => true
  | _ => false

/-- Number of elements of Python `range(0, stop, step)` for positive step. -/
def pyRangeLen (stop step : Nat) : Nat := (stop + step - 1) / step

/-- `sliding_window_analysis`: guard empty input and oversized windows
with explicit error results, then census all length-w windows at the
given stride, counting only the windows free of sentinels. -/
def sliding_window_analysis (seq : List Int) (w step : Nat) : WindowResult :=
  if seq = [] then .errorField "Empty sequence provided"
  else if seq.length < w then .errorField "Window size exceeds sequence length"
  else if step = 0 then .raised
  else
    let stop := seq.length - w + 1
    let idxs := (List.range (pyRangeLen stop step)).map (· * step)
    let windows := idxs.map (fun i => (seq.drop i).take w)
    let contrib := idxs.filter (fun i => ((seq.drop i).take w).all (fun h => 0 < h))
    let pats := counterList (contrib.map (fun i => (seq.drop i).take w))
    if pats = [] then .okEmpty w step
    else
      .ok { windowSize := w
            stepSize := step
            totalWindows := windows.length
            uniquePatterns := pats.length
            patternCounts := pats
            patternFrequencies := pats.map (fun p => (p.1, (p.2 : ℚ) / (windows.length : ℚ)))
            windowStartPositions := contrib.map (· + 1) }

/-- `min(len(seq) for seq in sequences)` (0 for no sequences, a case the
caller guards). -/
def minRawLen (seqs : List (List Int)) : Nat :=
  match seqs with
  | [] => 0
  | s :: rest => rest.foldl (fun m t => min m t.length) s.length

/-- The aligned sequences of `analyze_conservation`: each sequence is
truncated to the shortest raw length FIRST and sentinel-filtered
AFTERWARDS (`[h for h in seq[:min_length] if h > 0]`). -/
def alignedSeqs (seqs : List (List Int)) : List (List Int) :=
  seqs.map (fun s => (s.take (minRawLen seqs)).filter (fun h => decide (0 < h)))

/-- One entry of `position_conservation`. -/
structure ConsRecord where
  position : Nat
  dominantHexagram : Int
  dominantCount : Nat
  conservationScore : ℚ
  isConserved : Bool

/-- The record `analyze_conservation` builds for one aligned position:
`none` when no sequence still has an entry there (`continue`). -/
def consRecordAt (aligned : List (List Int)) (pos : Nat) : Option ConsRecord :=
  let atPos := aligned.filterMap (fun s => s.get? pos)
  if atPos = [] then none
  else
    let dom := (mostCommon1 (counterList atPos)).getD (0, 0)
    some { position := pos + 1
           dominantHexagram := dom.1
           dominantCount := dom.2
           conservationScore := (dom.2 : ℚ) / (atPos.length : ℚ)
           isConserved := decide ((0.8 : ℚ) ≤ (dom.2 : ℚ) / (atPos.length : ℚ)) }

/-- One merged conserved region of `_find_conserved_regions`. -/
structure ConsRegion where
  startPosition : Nat
  endPosition : Nat
  dominantHexagrams : List Int
  avgConservation : ℚ
  regionLength : Nat

/-- Close a region record: set its length and divide the accumulated
score sum by it. -/
def finalizeRegion (r : ConsRegion) : ConsRegion :=
  let len := r.endPosition - r.startPosition + 1
  { r with regionLength := len, avgConservation := r.avgConservation / (len : ℚ) }

/-- `_find_conserved_regions`: merge contiguous conserved positions into
region records, averaging their scores. -/
def findConservedRegions (records : List ConsRecord) : List ConsRegion :=
  let step := fun (st : List ConsRegion × Option ConsRegion) (p : ConsRecord) =>
    if p.isConserved then
      match st.2 with
      | none => (st.1, some ⟨p.position, p.position, [p.dominantHexagram], p.conservationScore, 0⟩)
      | some r => (st.1, some { r with
          endPosition := p.position
          dominantHexagrams := r.dominantHexagrams ++ [p.dominantHexagram]
          avgConservation := r.avgConservation + p.conservationScore })
    else
      match st.2 with
      | none => st
      | some r => (st.1 ++ [finalizeRegion r], none)
  let st := records.foldl step ([], none)
  match st.2 with
  | none => st.1
  | some r => st.1 ++ [finalizeRegion r]

/-- Jaccard similarity of two sequences' symbol sets, as
`_calculate_similarity_matrix` computes it. -/
def jaccardQ (a b : List Int) : ℚ :=
  let sa := a.dedup
  let sb := b.dedup
  let inter := (sa.filter (fun x => decide (x ∈ sb))).length
  let union := (sa ++ sb.filter (fun x => decide (x ∉ sa))).length
  if union ≠ 0 then (inter : ℚ) / (union : ℚ) else 0

/-- `_calculate_similarity_matrix`: pairwise Jaccard matrix with a unit
diagonal. -/
def similarityMatrixOf (seqs : List (List Int)) : List (List ℚ) :=
  (List.range seqs.length).map (fun i =>
    (List.range seqs.length).map (fun j =>
      if i = j then 1
      else jaccardQ (seqs.getD i []) (seqs.getD j [])))

/-- The non-error payload of `analyze_conservation`. -/
structure ConsReport where
  numSequences : Nat
  sequenceNames : List String
  alignmentLength : Nat
  averageConservation : ℚ
  highlyConserved : List ConsRecord
  positionConservation : List ConsRecord
  similarityMatrix : List (List ℚ)
  conservedRegions : List ConsRegion

/-- Result of `analyze_conservation`. -/
inductive ConsResult
  | err (msg : String)
  | ok (r : ConsReport)

/-- `analyze_conservation`: guard empty input and name-count mismatch,
truncate to the shortest raw length, sentinel-filter, and score every
aligned position by its dominant symbol's share. -/
def analyze_conservation (seqs : List (List Int)) (names : Option (List String)) :
    ConsResult :=
  if seqs = [] then .err "No sequences provided"
  else
    let names' := names.getD ((List.range seqs.length).map
      (fun i => "Sequence_" ++ toString (i + 1)))
    if names'.length ≠ seqs.length then .err "Number of names must match number of sequences"
    else
      let L := minRawLen seqs
      let aligned := alignedSeqs seqs
      let records := (List.range L).filterMap (consRecordAt aligned)
      .ok { numSequences := seqs.length
            sequenceNames := names'
            alignmentLength := L
            averageConservation :=
              if records.isEmpty then 0
              else (records.map (·.conservationScore)).sum / (records.length : ℚ)
            highlyConserved := records.filter (·.isConserved)
            positionConservation := records
            similarityMatrix := similarityMatrixOf aligned
            conservedRegions := findConservedRegions records }

/-- Projection used to state claims: how many position_conservation
records a conservation result carries. -/
def consPosCount (r : ConsResult) : Nat :=
  match r with
  | .err _ => 0
  | .ok rep => rep.positionConservation.length

/-- Projection used to state claims: the reported alignment_length. -/
def consAlignLen (r : ConsResult) : Nat :=
  match r with
  | .err _ => 0
  | .ok rep => rep.alignmentLength

/-- One run record of `detect_hexagram_run`.  The Python dict stores
`current_hexagram`, which is `None` in the degenerate records emitted
when `min_run_length` is 0, hence the `Option`. -/
structure RunRec where
  hexagram : Option Int
  startPos : Nat
  endPos : Nat
  runLength : Nat
deriving DecidableEq, Repr

/-- The report of `detect_hexagram_run`. -/
structure RunReport where
  minRunLen : Nat
  totalRuns : Nat
  runs : List RunRec
deriving DecidableEq, Repr

/-- Result of `detect_hexagram_run`. -/
inductive RunResult
  | err (msg : String)
  | ok (r : RunReport)
deriving DecidableEq, Repr

/-- The scanning loop of `detect_hexagram_run`, processing the remaining
sequence with the loop state (index of the next element, current
hexagram, run start index, run length, collected runs). -/
def detectLoop (minLen : Nat) :
    List Int → Nat → Option Int → Nat → Nat → List RunRec → List RunRec
  | [], i, cur, start, len, runs =>
      if minLen ≤ len then runs ++ [⟨cur, start + 1, i, len⟩] else runs
  | h :: rest, i, cur, start, len, runs =>
      if h ≤ 0 then
        detectLoop minLen rest (i + 1) none start 0
          (if minLen ≤ len then runs ++ [⟨cur, start + 1, i, len⟩] else runs)
      else if some h = cur then
        detectLoop minLen rest (i + 1) cur start (len + 1) runs
      else
        detectLoop minLen rest (i + 1) (some h) i 1
          (if minLen ≤ len then runs ++ [⟨cur, start + 1, i, len⟩] else runs)

/-- `detect_hexagram_run`: error dict on empty input, otherwise scan the
sequence for runs of one repeated positive hexagram. -/
def detect_hexagram_run (seq : List Int) (minLen : Nat) : RunResult :=
  if seq = [] then .err "Empty sequence provided"
  else
    let runs := detectLoop minLen seq 0 none 0 0 []
    .ok ⟨minLen, runs.length, runs⟩

/-- Projection used to state claims: the run records of a result. -/
def runsOf (r : RunResult) : List RunRec :=
  match r with
  | .err _ => []
  | .ok rep => rep.runs

/-- What a correct run record promises: it names a positive hexagram, is
long enough, its inclusive 1-indexed bounds match its length and stay
inside the sequence, every covered position holds exactly that
hexagram, and the record is maximal (the element before the run, if
any, differs from the run's hexagram, and so does the element after —
in particular a sentinel terminates a run without extending it). -/
def GoodRun (seq : List Int) (minLen : Nat) (r : RunRec) : Prop :=
  r.hexagram = some (r.hexagram.getD 0) ∧
  0 < r.hexagram.getD 0 ∧
  minLen ≤ r.runLength ∧
  1 ≤ r.startPos ∧
  r.endPos = r.startPos - 1 + r.runLength ∧
  r.endPos ≤ seq.length ∧
  (∀ k, k < r.runLength → seq.get? (r.startPos - 1 + k) = some (r.hexagram.getD 0)) ∧
  (r.startPos = 1 ∨ ∀ x, seq.get? (r.startPos - 2) = some x → x ≠ r.hexagram.getD 0) ∧
  (r.endPos = seq.length ∨ ∀ x, seq.get? r.endPos = some x → x ≠ r.hexagram.getD 0)

end PatternAnalyzer

namespace ComparativeAnalyzer

/-! ### Embedding of src/genetic_engine/comparative_analyzer.py

`compare_sequences` and `_calculate_pairwise_similarity` are embedded
as far as the claims reach: the per-sequence stats blocks (whose
diversity field needs `log`) and the cosine / Pearson metrics (which
need `sqrt`) are float-only and are not carried in the records. -/

/-- The similarity metrics `_calculate_pairwise_similarity` returns on
non-degenerate input (cosine omitted, see above). -/
structure Similarity where
  jaccard : ℚ
  overlap : ℚ
  matchPercentage : ℚ
  matchCount : Nat
  validPositions : Nat

/-- Result of `_calculate_pairwise_similarity`: the degenerate
zero-metrics dict when either side has no valid hexagram (that dict
carries no match_percentage key), otherwise the metrics. -/
inductive SimResult
  | degenerate
  | full (s : Similarity)

/-- `_calculate_pairwise_similarity`: Jaccard and overlap over the
symbol sets, plus position-wise match percentage over the common
prefix length. -/
def calculate_pairwise_similarity (h1 h2 : List Int) : SimResult :=
  let valid1 := h1.filter (fun h => decide (0 < h))
  let valid2 := h2.filter (fun h => decide (0 < h))
  if valid1 = [] ∨ valid2 = [] then .degenerate
  else
    let s1 := valid1.dedup
    let s2 := valid2.dedup
    let inter := (s1.filter (fun x => decide (x ∈ s2))).length
    let union := (s1 ++ s2.filter (fun x => decide (x ∉ s1))).length
    let jac : ℚ := if union ≠ 0 then (inter : ℚ) / (union : ℚ) else 0
    let ov : ℚ :=
      if 0 < min s1.length s2.length then (inter : ℚ) / ((min s1.length s2.length : Nat) : ℚ)
      else 0
    let minLen := min h1.length h2.length
    let matchCount := (List.range minLen).countP
      (fun i => decide (h1.getD i 0 = h2.getD i 0 ∧ 0 < h1.getD i 0))
    let validPositions := (List.range minLen).countP
      (fun i => decide (0 < h1.getD i 0 ∧ 0 < h2.getD i 0))
    let mp : ℚ :=
      if 0 < validPositions then (matchCount : ℚ) / (validPositions : ℚ) * 100 else 0
    .full ⟨jac, ov, mp, matchCount, validPositions⟩

/-- Projection used to state claims: the Jaccard similarity, when the
metrics dict carries one. -/
def simJaccard (r : SimResult) : Option ℚ :=
  match r with
  | .degenerate => none
  | .full s => some s.jaccard

/-- Projection used to state claims: the match_percentage of the
metrics dict, when present. -/
def simMatchPct (r : SimResult) : Option ℚ :=
  match r with
  | .degenerate => none
  | .full s => some s.matchPercentage

/-- The comparison record of `compare_sequences` (per-sequence stats
omitted, see the namespace note; the side_by_side rows are summarised
by the match counters computed from them). -/
structure CompareReport where
  similarity : SimResult
  matchPercentage : ℚ
  matchCount : Nat
  validComparisons : Nat
  differencesCount : Nat

/-- `compare_sequences`: translate both raw sequences under the same
scheme, compute the similarity bundle, and count position-wise matches
over the common prefix (a row matches when both symbols are equal and
the first is positive; a row is a valid comparison when both are
positive). -/
def compare_sequences (s1 s2 : List Char) (scheme : String) : CompareReport :=
  let h1 := CodonTranslator.translate_sequence (CodonTranslator.BINARY_SCHEMES scheme) s1
  let h2 := CodonTranslator.translate_sequence (CodonTranslator.BINARY_SCHEMES scheme) s2
  let minLen := min h1.length h2.length
  let matchCount := (List.range minLen).countP
    (fun i => decide (h1.getD i 0 = h2.getD i 0 ∧ 0 < h1.getD i 0))
  let validComparisons := (List.range minLen).countP
    (fun i => decide (0 < h1.getD i 0 ∧ 0 < h2.getD i 0))
  let differencesCount := (List.range minLen).countP
    (fun i => decide (¬(h1.getD i 0 = h2.getD i 0 ∧ 0 < h1.getD i 0) ∧
      0 < h1.getD i 0 ∧ 0 < h2.getD i 0))
  { similarity := calculate_pairwise_similarity h1 h2
    matchPercentage :=
      if 0 < validComparisons then (matchCount : ℚ) / (validComparisons : ℚ) * 100 else 0
    matchCount := matchCount
    validComparisons := validComparisons
    differencesCount := differencesCount }

end ComparativeAnalyzer

/-! ### Definitions written from the claims' words (for refinement
comparisons against the embedded code) -/

/-- Modelled from the spec claim C1: `parseBinary(reverse(bits)) + 1`,
the reverse-ordered reading of the bit string. -/
def bitsToSymbolSpec (b : List Char) : Option Nat :=
  (parseBinary b.reverse).map (· + 1)

/-- Modelled from the spec claim C4: normalization that strips ALL
whitespace (not only the space character) after upper-casing. -/
def specNormalizeWhitespace (s : List Char) : List Char :=
  (s.map Char.toUpper).filter (fun c => ¬ c.isWhitespace)

/-- Modelled from the spec claim C6: sequences are sentinel-filtered
FIRST and then truncated to the shortest filtered length. -/
def claimAlignedSeqs (seqs : List (List Int)) : List (List Int) :=
  let filtered := seqs.map (fun s => s.filter (fun h => decide (0 < h)))
  filtered.map (fun s => s.take (PatternAnalyzer.minRawLen filtered))

/-- The constant positional bias of a position carrying exactly one
symbol: the claim C10 constant `(1 - 1/64)^2 / (1/64)`. -/
def singletonBias : ℚ := ((1 : ℚ) - 1 / 64) ^ 2 / (1 / 64)

/-! ### Helper lemmas about the translator -/

theorem filterMap_if_eq_map_filter {α β : Type} (p : α → Prop) [DecidablePred p]
    (f : α → β) (l : List α) :
    l.filterMap (fun a => if p a then some (f a) else none) =
      (l.filter (fun a => decide (p a))).map f := by
  induction l with
  | nil => rfl
  | cons a l ih => by_cases h : p a <;> simp [h, ih]

theorem chunks3_full_count (l : List Char) :
    ((CodonTranslator.chunks3 l).filter (fun c => decide (c.length = 3))).length =
      l.length / 3 := by
  induction l using CodonTranslator.chunks3.induct with
  | case1 => simp [CodonTranslator.chunks3]
  | case2 a => simp [CodonTranslator.chunks3]
  | case3 a b => simp [CodonTranslator.chunks3]
  | case4 a b c rest ih =>
      rw [show CodonTranslator.chunks3 (a :: b :: c :: rest) =
        [a, b, c] :: CodonTranslator.chunks3 rest from rfl]
      rw [List.filter_cons_of_pos (by rfl), List.length_cons, ih]
      simp only [List.length_cons, List.length_nil]
      omega

theorem schemeMap1_bit (c : Char) :
    CodonTranslator.schemeMap1 c = '0' ∨ CodonTranslator.schemeMap1 c = '1' := by
  unfold CodonTranslator.schemeMap1
  split_ifs <;> simp

theorem schemeMap2_bit (c : Char) :
    CodonTranslator.schemeMap2 c = '0' ∨ CodonTranslator.schemeMap2 c = '1' := by
  unfold CodonTranslator.schemeMap2
  split_ifs <;> simp

theorem schemeMap3_bit (c : Char) :
    CodonTranslator.schemeMap3 c = '0' ∨ CodonTranslator.schemeMap3 c = '1' := by
  unfold CodonTranslator.schemeMap3
  split_ifs <;> simp

theorem schemeMap4_bit (c : Char) :
    CodonTranslator.schemeMap4 c = '0' ∨ CodonTranslator.schemeMap4 c = '1' := by
  unfold CodonTranslator.schemeMap4
  split_ifs <;> simp

theorem scheme_bit (name : String) (c : Char) :
    CodonTranslator.BINARY_SCHEMES name c = '0' ∨
      CodonTranslator.BINARY_SCHEMES name c = '1' := by
  unfold CodonTranslator.BINARY_SCHEMES
  split_ifs
  · exact schemeMap1_bit c
  · exact schemeMap2_bit c
  · exact schemeMap3_bit c
  · exact schemeMap4_bit c
  · exact schemeMap1_bit c

theorem foldl_bits_lt (b : List Char) :
    ∀ a : Nat, b.foldl (fun a c => 2 * a + (if c = '1' then 1 else 0)) a <
      (a + 1) * 2 ^ b.length := by
  induction b with
  | nil =>
      intro a
      simp only [List.foldl_nil, List.length_nil, pow_zero, mul_one]
      omega
  | cons c b ih =>
      intro a
      have h1 := ih (2 * a + (if c = '1' then 1 else 0))
      have h2 : (if c = '1' then 1 else 0) ≤ 1 := by split <;> simp
      calc (c :: b).foldl (fun a c => 2 * a + (if c = '1' then 1 else 0)) a
          < (2 * a + (if c = '1' then 1 else 0) + 1) * 2 ^ b.length := h1
        _ ≤ ((a + 1) * 2) * 2 ^ b.length := by
            apply Nat.mul_le_mul_right
            omega
        _ = (a + 1) * 2 ^ (c :: b).length := by
            simp [List.length_cons, pow_succ]
            ring

theorem bitsVal_lt (b : List Char) : bitsVal b < 2 ^ b.length := by
  simpa using foldl_bits_lt b 0

theorem translate_codon_bounds (name : String) (codon : List Char) (h : codon ≠ []) :
    ∃ n, CodonTranslator.translate_codon (CodonTranslator.BINARY_SCHEMES name) codon =
        some n ∧ 1 ≤ n ∧ n ≤ 2 ^ codon.length := by
  have hbits : ∀ c ∈ CodonTranslator.codon_to_binary
      (CodonTranslator.BINARY_SCHEMES name) codon, c = '0' ∨ c = '1' := by
    intro c hc
    simp only [CodonTranslator.codon_to_binary, List.mem_map] at hc
    obtain ⟨d, _, rfl⟩ := hc
    exact scheme_bit name d
  have hne : CodonTranslator.codon_to_binary (CodonTranslator.BINARY_SCHEMES name) codon ≠ [] := by
    simp [CodonTranslator.codon_to_binary, h]
  have hlen : (CodonTranslator.codon_to_binary
      (CodonTranslator.BINARY_SCHEMES name) codon).length = codon.length := by
    simp [CodonTranslator.codon_to_binary]
  refine ⟨bitsVal (CodonTranslator.codon_to_binary
    (CodonTranslator.BINARY_SCHEMES name) codon) + 1, ?_, ?_, ?_⟩
  · unfold CodonTranslator.translate_codon CodonTranslator.binary_to_hexagram_number parseBinary
    rw [if_pos ⟨hne, hbits⟩]
    rfl
  · omega
  · have := bitsVal_lt (CodonTranslator.codon_to_binary
      (CodonTranslator.BINARY_SCHEMES name) codon)
    rw [hlen] at this
    omega

theorem translate_sequence_eq (scheme : Char → Char) (s : List Char) :
    CodonTranslator.translate_sequence scheme s =
      ((CodonTranslator.chunks3 (CodonTranslator.normalizeSeq s)).filter
        (fun c => decide (c.length = 3))).map
        (fun codon => CodonTranslator.hexOrZero
          (CodonTranslator.translate_codon scheme codon)) :=
  filterMap_if_eq_map_filter (fun c : List Char => c.length = 3)
    (fun codon => CodonTranslator.hexOrZero (CodonTranslator.translate_codon scheme codon))
    (CodonTranslator.chunks3 (CodonTranslator.normalizeSeq s))

theorem translate_sequence_length (scheme : Char → Char) (s : List Char) :
    (CodonTranslator.translate_sequence scheme s).length =
      (CodonTranslator.normalizeSeq s).length / 3 := by
  rw [translate_sequence_eq, List.length_map, chunks3_full_count]

theorem mem_translate_bounds (name : String) (s : List Char) (x : Int)
    (hx : x ∈ CodonTranslator.translate_sequence (CodonTranslator.BINARY_SCHEMES name) s) :
    1 ≤ x ∧ x ≤ 8 := by
  rw [translate_sequence_eq] at hx
  simp only [List.mem_map, List.mem_filter, decide_eq_true_eq] at hx
  obtain ⟨codon, ⟨_, hlen⟩, rfl⟩ := hx
  have hne : codon ≠ [] := by
    intro hc
    rw [hc] at hlen
    simp at hlen
  obtain ⟨n, heq, h1, h2⟩ := translate_codon_bounds name codon hne
  rw [hlen] at h2
  rw [heq]
  unfold CodonTranslator.hexOrZero
  have hn0 : n ≠ 0 := by omega
  simp only [hn0, if_false]
  norm_num at h2 ⊢
  omega

/-! ### Claims C1 through C4 and C9 -/

/-- C1 counterexample: the translator's binary_to_hexagram_number does
NOT reverse the bit string.  On the 6-bit string "100000" the code
returns int("100000", 2) + 1 = 33, while the claimed formula
parseBinary(reverse("100000")) + 1 yields 2. -/
theorem C1_counterexample :
    (['1', '0', '0', '0', '0', '0'] : List Char).length = 6 ∧
    (∀ c ∈ (['1', '0', '0', '0', '0', '0'] : List Char), c = '0' ∨ c = '1') ∧
    CodonTranslator.binary_to_hexagram_number ['1', '0', '0', '0', '0', '0'] = some 33 ∧
    bitsToSymbolSpec ['1', '0', '0', '0', '0', '0'] = some 2 ∧
    CodonTranslator.binary_to_hexagram_number ['1', '0', '0', '0', '0', '0'] ≠
      bitsToSymbolSpec ['1', '0', '0', '0', '0', '0'] := by
  decide

/-- C1 (amended): for every 6-character bit string b, the translator's
binary_to_hexagram_number returns parseBinary(b) + 1 — the bit string is
read in the order written, with no reversal (the bottom-line reversal
exists only in HexagramMapper.map_codon_binary_to_hexagram). -/
theorem C1_translator_reads_bits_in_order (b : List Char) (h6 : b.length = 6)
    (hb : ∀ c ∈ b, c = '0' ∨ c = '1') :
    CodonTranslator.binary_to_hexagram_number b = some (bitsVal b + 1) := by
  have hne : b ≠ [] := by
    intro h
    rw [h] at h6
    simp at h6
  unfold CodonTranslator.binary_to_hexagram_number parseBinary
  rw [if_pos ⟨hne, hb⟩]
  rfl

/-- Witness for C1: the amended statement applied at the concrete
bit string "010101". -/
theorem C1_witness :
    CodonTranslator.binary_to_hexagram_number ['0', '1', '0', '1', '0', '1'] =
      some (bitsVal ['0', '1', '0', '1', '0', '1'] + 1) :=
  C1_translator_reads_bits_in_order ['0', '1', '0', '1', '0', '1'] (by decide) (by decide)

/-- C2 counterexample: symbolToBits (the stored 6-line pattern,
get_hexagram_binary) does not invert bitsToSymbol.  bitsToSymbol maps
"000010" to 3, but the stored pattern of hexagram 3 is the King Wen
pattern [1,0,0,0,0,1], not "000010" in either reading order; and
bitsToSymbol maps "001000" to 9, for which the 8-entry table stores no
pattern at all. -/
theorem C2_counterexample :
    CodonTranslator.binary_to_hexagram_number ['0', '0', '0', '0', '1', '0'] = some 3 ∧
    HexagramMapper.get_hexagram_binary 3 = some [1, 0, 0, 0, 0, 1] ∧
    some (bitsOfChars ['0', '0', '0', '0', '1', '0']) ≠
      HexagramMapper.get_hexagram_binary 3 ∧
    some (bitsOfChars (['0', '0', '0', '0', '1', '0'].reverse)) ≠
      HexagramMapper.get_hexagram_binary 3 ∧
    CodonTranslator.binary_to_hexagram_number ['0', '0', '1', '0', '0', '0'] = some 9 ∧
    HexagramMapper.get_hexagram_binary 9 = none := by
  decide

/-- C2 (amended): over all 64 six-bit strings, bitsToSymbol (the
translator's binary_to_hexagram_number) is total and injective with
values in [1,64] — a bijection with no failure mode — but the stored
6-line patterns do NOT recover the input bits (see the
counterexample): HEXAGRAM_BINARY_DATA holds King Wen patterns for only
8 of the 64 symbols, and even those differ from the value+1 encoding. -/
theorem C2_bitsToSymbol_bijective :
    (allBitStrings 6).length = 64 ∧
    ((allBitStrings 6).map CodonTranslator.binary_to_hexagram_number).Nodup ∧
    ∀ b ∈ allBitStrings 6,
      (CodonTranslator.binary_to_hexagram_number b).isSome ∧
      1 ≤ (CodonTranslator.binary_to_hexagram_number b).getD 0 ∧
      (CodonTranslator.binary_to_hexagram_number b).getD 0 ≤ 64 := by
  decide

/-- Witness for C2: the range-and-totality part applied at the concrete
bit string "000000". -/
theorem C2_witness :
    (CodonTranslator.binary_to_hexagram_number ['0', '0', '0', '0', '0', '0']).isSome ∧
    1 ≤ (CodonTranslator.binary_to_hexagram_number ['0', '0', '0', '0', '0', '0']).getD 0 ∧
    (CodonTranslator.binary_to_hexagram_number ['0', '0', '0', '0', '0', '0']).getD 0 ≤ 64 :=
  C2_bitsToSymbol_bijective.2.2 ['0', '0', '0', '0', '0', '0'] (by decide)

/-- C3: translate_sequence is total — for every input string (unknown
characters included, they default to bit '0') and every scheme name,
every emitted symbol lies in [1,64]; in particular the sentinel 0 is
never emitted.  (The embedding is a total function, mirroring that the
Python code cannot raise on any string input.) -/
theorem C3_translate_sequence_total_in_range (name : String) (s : List Char) :
    ∀ x ∈ CodonTranslator.translate_sequence (CodonTranslator.BINARY_SCHEMES name) s,
      1 ≤ x ∧ x ≤ 64 := by
  intro x hx
  have h := mem_translate_bounds name s x hx
  exact ⟨h.1, le_trans h.2 (by norm_num)⟩

/-- Witness for C3: applied to the garbage-bearing input "a!cXYZ",
whose first codon "A!C" translates to symbol 2. -/
theorem C3_witness : (1 : Int) ≤ 2 ∧ (2 : Int) ≤ 64 :=
  C3_translate_sequence_total_in_range "scheme_1" ("a!cXYZ".toList) 2 (by decide)

/-- C4 counterexample: translate_sequence strips only space characters,
not all whitespace.  On "A\tG" the code keeps the tab (default-mapping
it to bit '0') and produces one symbol, while the claimed formula
floor(whitespace-stripped-length / 3) gives 0. -/
theorem C4_counterexample :
    CodonTranslator.translate_sequence (CodonTranslator.BINARY_SCHEMES "scheme_1")
      ['A', '\t', 'G'] = [2] ∧
    (CodonTranslator.translate_sequence (CodonTranslator.BINARY_SCHEMES "scheme_1")
      ['A', '\t', 'G']).length = 1 ∧
    (specNormalizeWhitespace ['A', '\t', 'G']).length / 3 = 0 := by
  decide

/-- C4 (amended): translate_sequence normalizes by upper-casing and
stripping SPACE characters only (other whitespace is kept and treated
as an unmappable character), splits the result into consecutive
non-overlapping 3-character codons dropping the trailing partial
codon, and emits one symbol per complete codon in order, so the output
length is exactly floor(space-stripped-length / 3). -/
theorem C4_translate_sequence_structure (name : String) (s : List Char) :
    CodonTranslator.translate_sequence (CodonTranslator.BINARY_SCHEMES name) s =
      ((CodonTranslator.chunks3 (CodonTranslator.normalizeSeq s)).filter
        (fun c => decide (c.length = 3))).map
        (fun codon => CodonTranslator.hexOrZero
          (CodonTranslator.translate_codon (CodonTranslator.BINARY_SCHEMES name) codon)) ∧
    (CodonTranslator.translate_sequence (CodonTranslator.BINARY_SCHEMES name) s).length =
      (CodonTranslator.normalizeSeq s).length / 3 ∧
    CodonTranslator.normalizeSeq s = (s.map Char.toUpper).filter (fun c => c ≠ ' ') :=
  ⟨translate_sequence_eq _ s, translate_sequence_length _ s, rfl⟩

/-- C9: the King Wen table HEXAGRAM_BINARY_DATA holds only 8 of the 64
six-bit patterns, and there is a well-formed ATGC codon ("AAA") for
which map_codon_to_hexagram returns None, so batch_map_codons (without
a custom mapping) emits the sentinel 0 for it.  (The lookup in fact
fails for every codon: codon_to_binary yields one bit per nucleotide —
a 3-bit string — which can never equal a stored 6-line pattern.) -/
theorem C9_partial_table_unmappable_codon :
    HexagramMapper.HEXAGRAM_BINARY_DATA.length = 8 ∧
    (∀ p ∈ HexagramMapper.HEXAGRAM_BINARY_DATA, p.2.length = 6) ∧
    HexagramMapper.map_codon_to_hexagram ("AAA".toList) "scheme_1" = none ∧
    HexagramMapper.batch_map_codons [("AAA".toList)] none "scheme_1" = [0] := by
  decide

/-- Witness for C9: the table-shape part applied at the table's first
entry. -/
theorem C9_witness : ((1, [1, 1, 1, 1, 1, 1]) : Nat × List Nat).2.length = 6 :=
  C9_partial_table_unmappable_codon.2.1 (1, [1, 1, 1, 1, 1, 1]) (by decide)

/-! ### Claim C5: sliding window error handling -/

/-- C5: sliding_window_analysis answers an oversized window with an
explicit error dict (never an exception), and on a non-empty sequence
with a window that fits (and any positive step, the Python default
being 1) it produces a result without an error field and without
raising. -/
theorem C5_sliding_window_error_handling (seq : List Int) (w step : Nat) :
    (seq.length < w →
      (PatternAnalyzer.sliding_window_analysis seq w step).isError = true ∧
      (PatternAnalyzer.sliding_window_analysis seq w step).isRaised = false) ∧
    (seq ≠ [] → w ≤ seq.length → 0 < step →
      (PatternAnalyzer.sliding_window_analysis seq w step).isError = false ∧
      (PatternAnalyzer.sliding_window_analysis seq w step).isRaised = false) := by
  constructor
  · intro hw
    unfold PatternAnalyzer.sliding_window_analysis
    by_cases hs : seq = []
    · rw [if_pos hs]
      exact ⟨rfl, rfl⟩
    · rw [if_neg hs, if_pos hw]
      exact ⟨rfl, rfl⟩
  · intro hs hw hstep
    unfold PatternAnalyzer.sliding_window_analysis
    rw [if_neg hs, if_neg (by omega : ¬ seq.length < w), if_neg (by omega : ¬ step = 0)]
    dsimp only
    split
    · exact ⟨rfl, rfl⟩
    · exact ⟨rfl, rfl⟩

/-- Witness for C5: the oversized-window half at window 17 over a
1-element sequence, and the fitting-window half at window 1 over a
2-element sequence, both at the default step 1. -/
theorem C5_witness :
    ((PatternAnalyzer.sliding_window_analysis [5] 17 1).isError = true ∧
      (PatternAnalyzer.sliding_window_analysis [5] 17 1).isRaised = false) ∧
    ((PatternAnalyzer.sliding_window_analysis [5, 6] 1 1).isError = false ∧
      (PatternAnalyzer.sliding_window_analysis [5, 6] 1 1).isRaised = false) :=
  ⟨(C5_sliding_window_error_handling [5] 17 1).1 (by decide),
   (C5_sliding_window_error_handling [5, 6] 1 1).2 (by decide) (by decide) (by decide)⟩

/-! ### Claim C7: self-comparison -/

theorem filter_pos_of_all_pos (h : List Int) (hpos : ∀ x ∈ h, 0 < x) :
    h.filter (fun x => decide (0 < x)) = h :=
  List.filter_eq_self.mpr (fun a ha => decide_eq_true (hpos a ha))

theorem countP_range_of_all (n : Nat) (p : Nat → Bool) (hall : ∀ i < n, p i = true) :
    (List.range n).countP p = n := by
  rw [show (List.range n).countP p = (List.range n).length from
    List.countP_eq_length.mpr (fun a ha => hall a (List.mem_range.mp ha))]
  exact List.length_range n

/-- C7: comparing a raw sequence that yields at least one codon with
itself under one scheme gives a 100.0 position-match percentage and
Jaccard similarity 1.0 (both in the top-level report and in the
similarity metrics bundle). -/
theorem C7_self_comparison (s : List Char) (name : String)
    (h3 : 3 ≤ (CodonTranslator.normalizeSeq s).length) :
    (ComparativeAnalyzer.compare_sequences s s name).matchPercentage = 100 ∧
    ComparativeAnalyzer.simMatchPct
      (ComparativeAnalyzer.compare_sequences s s name).similarity = some 100 ∧
    ComparativeAnalyzer.simJaccard
      (ComparativeAnalyzer.compare_sequences s s name).similarity = some 1 := by
  have hpos : ∀ x ∈ CodonTranslator.translate_sequence
      (CodonTranslator.BINARY_SCHEMES name) s, 0 < x := by
    intro x hx
    have := mem_translate_bounds name s x hx
    omega
  have hlen : 1 ≤ (CodonTranslator.translate_sequence
      (CodonTranslator.BINARY_SCHEMES name) s).length := by
    rw [translate_sequence_length]
    omega
  set h := CodonTranslator.translate_sequence (CodonTranslator.BINARY_SCHEMES name) s with hh
  have hne : h ≠ [] := by
    intro h0
    rw [h0] at hlen
    simp at hlen
  have hgetD : ∀ i, i < h.length → 0 < h.getD i 0 := by
    intro i hi
    rw [List.getD_eq_getElem?_getD, List.getElem?_eq_getElem hi]
    exact hpos _ (List.getElem_mem hi)
  have hcount1 : (List.range (min h.length h.length)).countP
      (fun i => decide (h.getD i 0 = h.getD i 0 ∧ 0 < h.getD i 0)) = h.length := by
    rw [Nat.min_self]
    exact countP_range_of_all _ _ (fun i hi => decide_eq_true ⟨rfl, hgetD i hi⟩)
  have hcount2 : (List.range (min h.length h.length)).countP
      (fun i => decide (0 < h.getD i 0 ∧ 0 < h.getD i 0)) = h.length := by
    rw [Nat.min_self]
    exact countP_range_of_all _ _ (fun i hi => decide_eq_true ⟨hgetD i hi, hgetD i hi⟩)
  have hq : ((h.length : ℚ)) ≠ 0 := by
    intro h0
    rw [Nat.cast_eq_zero] at h0
    omega
  have hsim : ComparativeAnalyzer.calculate_pairwise_similarity h h =
      .full ⟨1, 1, 100, h.length, h.length⟩ := by
    unfold ComparativeAnalyzer.calculate_pairwise_similarity
    rw [filter_pos_of_all_pos h hpos]
    rw [if_neg (by simp [hne])]
    dsimp only
    have hdne : h.dedup ≠ [] := by
      rw [ne_eq, List.dedup_eq_nil]
      exact hne
    have hinter : (h.dedup.filter (fun x => decide (x ∈ h.dedup))).length = h.dedup.length := by
      rw [List.filter_eq_self.mpr (fun a ha => decide_eq_true ha)]
    have hunion : (h.dedup ++ h.dedup.filter (fun x => decide (x ∉ h.dedup))).length =
        h.dedup.length := by
      rw [List.filter_eq_nil_iff.mpr (fun a ha => by simp [ha]), List.append_nil]
    rw [hinter, hunion, hcount1, hcount2]
    have hd0 : h.dedup.length ≠ 0 := by
      intro h0
      exact hdne (List.length_eq_zero.mp h0)
    have hdq : ((h.dedup.length : ℚ)) ≠ 0 := by
      intro h0
      rw [Nat.cast_eq_zero] at h0
      exact hd0 h0
    rw [if_pos hd0, if_pos (by omega : 0 < min h.dedup.length h.dedup.length),
      if_pos (by omega : 0 < h.length)]
    rw [Nat.min_self, div_self hdq, div_self hq, one_mul]
  unfold ComparativeAnalyzer.compare_sequences
  rw [← hh]
  dsimp only
  rw [hcount1, hcount2, hsim, if_pos (by omega : 0 < h.length), div_self hq, one_mul]
  exact ⟨rfl, rfl, rfl⟩

/-- Witness for C7: the scenario compareSequences("ATGATG", "ATGATG",
scheme_1) from the claim. -/
theorem C7_witness :
    (ComparativeAnalyzer.compare_sequences ("ATGATG".toList) ("ATGATG".toList)
      "scheme_1").matchPercentage = 100 ∧
    ComparativeAnalyzer.simMatchPct
      (ComparativeAnalyzer.compare_sequences ("ATGATG".toList) ("ATGATG".toList)
        "scheme_1").similarity = some 100 ∧
    ComparativeAnalyzer.simJaccard
      (ComparativeAnalyzer.compare_sequences ("ATGATG".toList) ("ATGATG".toList)
        "scheme_1").similarity = some 1 :=
  C7_self_comparison ("ATGATG".toList) "scheme_1" (by decide)

/-! ### Claim C10: position analysis of a single sequence -/

theorem groupAppend_fresh (m : List (Nat × List Int)) (p : Nat) (x : Int)
    (h : ∀ q ∈ m, q.1 ≠ p) :
    PatternAnalyzer.groupAppend m p x = m ++ [(p, [x])] := by
  unfold PatternAnalyzer.groupAppend
  rw [if_neg]
  simp only [List.any_eq_true, decide_eq_true_eq, not_exists, not_and]
  intro q hq
  exact h q hq

theorem foldl_group_fresh (pairs : List (Int × Nat)) :
    ∀ acc : List (Nat × List Int),
      (pairs.map (·.2)).Nodup →
      (∀ hp ∈ pairs, ∀ q ∈ acc, q.1 ≠ hp.2) →
      pairs.foldl (fun m ph => if 0 < ph.1 then PatternAnalyzer.groupAppend m ph.2 ph.1 else m)
          acc =
        acc ++ pairs.filterMap (fun hp => if 0 < hp.1 then some (hp.2, [hp.1]) else none) := by
  induction pairs with
  | nil => intro acc _ _; simp
  | cons hp rest ih =>
      intro acc hnd hfresh
      simp only [List.map_cons, List.nodup_cons] at hnd
      by_cases hpos : 0 < hp.1
      · rw [List.foldl_cons, if_pos hpos,
          groupAppend_fresh acc hp.2 hp.1 (fun q hq => hfresh hp (by simp) q hq)]
        rw [ih (acc ++ [(hp.2, [hp.1])]) hnd.2 ?fresh]
        case fresh =>
          intro hq hqmem q hqacc
          rcases List.mem_append.mp hqacc with hin | hin
          · exact hfresh hq (by simp [hqmem]) q hin
          · have : q = (hp.2, [hp.1]) := by simpa using hin
            rw [this]
            intro hcontra
            exact hnd.1 (List.mem_map.mpr ⟨hq, hqmem, hcontra.symm⟩)
        rw [List.filterMap_cons, if_pos hpos, List.append_assoc]
        rfl
      · rw [List.foldl_cons, if_neg hpos, List.filterMap_cons, if_neg hpos]
        exact ih acc hnd.2 (fun hq hqmem q hqacc => hfresh hq (by simp [hqmem]) q hqacc)

/-- The grouped form `positionHexagrams` takes on the default positions
1..n: one singleton group per non-sentinel entry, in order. -/
def groupedForm (seq : List Int) : List (Nat × List Int) :=
  (seq.zip (List.range' 1 seq.length)).filterMap
    (fun hp => if 0 < hp.1 then some (hp.2, [hp.1]) else none)

theorem zip_snd_range' (seq : List Int) :
    (seq.zip (List.range' 1 seq.length)).map (·.2) = List.range' 1 seq.length := by
  have := List.map_snd_zip seq (List.range' 1 seq.length) (by simp)
  simpa using this

theorem positionHexagrams_default (seq : List Int) :
    PatternAnalyzer.positionHexagrams seq (List.range' 1 seq.length) = groupedForm seq := by
  unfold PatternAnalyzer.positionHexagrams groupedForm
  rw [foldl_group_fresh _ [] ?nodup ?fresh]
  · simp
  case nodup =>
    rw [zip_snd_range']
    exact List.nodup_range' 1 seq.length
  case fresh => simp

theorem groupedForm_mem_shape (seq : List Int) (pg : Nat × List Int)
    (hm : pg ∈ groupedForm seq) : ∃ h : Int, pg.2 = [h] := by
  unfold groupedForm at hm
  rw [List.mem_filterMap] at hm
  obtain ⟨hp, _, heq⟩ := hm
  by_cases hpos : 0 < hp.1
  · rw [if_pos hpos] at heq
    have hpg := Option.some.inj heq
    exact ⟨hp.1, by rw [← hpg]⟩
  · rw [if_neg hpos] at heq
    exact absurd heq (by simp)

theorem groupedForm_sorted (seq : List Int) :
    (groupedForm seq).Pairwise (fun a b => a.1 ≤ b.1) := by
  unfold groupedForm
  have hzip : (seq.zip (List.range' 1 seq.length)).Pairwise (fun a b => a.2 < b.2) := by
    have hr : (List.range' 1 seq.length).Pairwise (· < ·) :=
      List.pairwise_lt_range' 1 seq.length
    have := (List.pairwise_map (f := fun p : Int × Nat => p.2)
      (R := fun a b : Nat => a < b)).mp (by rw [zip_snd_range' seq]; exact hr)
    exact this
  apply List.Pairwise.filterMap _ ?step hzip
  intro a b hab x hx y hy
  by_cases ha : 0 < a.1
  · by_cases hb : 0 < b.1
    · rw [if_pos ha] at hx
      rw [if_pos hb] at hy
      simp only [Option.mem_def, Option.some_inj] at hx hy
      rw [← hx, ← hy]
      exact Nat.le_of_lt hab
    · rw [if_neg hb] at hy
      simp at hy
  · rw [if_neg ha] at hx
    simp at hx

theorem biasOf_single (h : Int) : PatternAnalyzer.biasOf [h] = singletonBias := by
  unfold PatternAnalyzer.biasOf counterList countAdd singletonBias
  norm_num

theorem singletonBias_pos : 0 < singletonBias := by
  unfold singletonBias
  norm_num

theorem filterMap_eq_map_of_all {α β : Type} {f : α → Option β} {g : α → β} (l : List α)
    (h : ∀ a ∈ l, f a = some (g a)) : l.filterMap f = l.map g := by
  induction l with
  | nil => rfl
  | cons a l ih =>
      rw [List.filterMap_cons, h a (by simp), List.map_cons,
        ih (fun a ha => h a (by simp [ha]))]

/-- C10 counterexample: a non-empty single sequence whose only entry is
the sentinel 0 gets NO bias entry for its position 1 — the grouping
skips sentinel entries, so not every position is assigned exactly one
non-sentinel symbol and not every position's bias equals the claimed
constant. -/
theorem C10_counterexample :
    ([0] : List Int) ≠ [] ∧ ([0] : List Int).length = 1 ∧
    PatternAnalyzer.posBiasOf (PatternAnalyzer.analyze_position_patterns [0] none) = [] ∧
    PatternAnalyzer.posBiasOf (PatternAnalyzer.analyze_position_patterns [0] none) ≠
      (List.range' 1 1).map (fun p => (p, singletonBias)) := by
  refine ⟨by decide, by decide, by decide, ?_⟩
  have h1 : PatternAnalyzer.posBiasOf (PatternAnalyzer.analyze_position_patterns [0] none) =
      [] := by decide
  rw [h1]
  simp

/-- The entry-to-bias projection over any grouping whose stored lists
are singletons collapses to the constant singleton bias. -/
theorem core_biases (G : List (Nat × List Int))
    (hshape : ∀ pg ∈ G, ∃ h : Int, pg.2 = [h]) :
    (G.map (fun pg =>
      let counts := counterList pg.2
      let dom := (mostCommon1 counts).getD (0, 0)
      (pg.1, PatternAnalyzer.biasOf pg.2, dom.1,
        ((dom.2 : ℚ) / (pg.2.length : ℚ))))).map (fun e => (e.1, e.2.1)) =
      G.map (fun pg => (pg.1, singletonBias)) := by
  rw [List.map_map]
  apply List.map_congr_left
  intro pg hpg
  obtain ⟨h, hs⟩ := hshape pg hpg
  show (pg.1, PatternAnalyzer.biasOf pg.2) = (pg.1, singletonBias)
  rw [hs, biasOf_single]

/-- Over any grouping with singleton value lists, the high-bias filter
of the position analysis comes out empty: all biases equal one
positive constant, so none exceeds twice their average. -/
theorem core_highBias (G : List (Nat × List Int))
    (hshape : ∀ pg ∈ G, ∃ h : Int, pg.2 = [h]) :
    (let entries := G.map (fun pg =>
      let counts := counterList pg.2
      let dom := (mostCommon1 counts).getD (0, 0)
      (pg.1, PatternAnalyzer.biasOf pg.2, dom.1,
        ((dom.2 : ℚ) / (pg.2.length : ℚ))))
    let biases := entries.map (fun e => (e.1, e.2.1))
    let avg : ℚ := if biases = [] then 0 else (biases.map (·.2)).sum / (biases.length : ℚ)
    biases.filter (fun b => 2 * avg < b.2)) = [] := by
  dsimp only
  rw [core_biases G hshape]
  rcases eq_or_ne G [] with hg | hg
  · rw [hg]
    rfl
  · have hlenpos : 0 < G.length := List.length_pos.mpr hg
    have hmapne : G.map (fun pg => (pg.1, singletonBias)) ≠ [] := by simp [hg]
    rw [if_neg hmapne]
    have hsumvals : (G.map (fun pg => (pg.1, singletonBias))).map (·.2) =
        List.replicate G.length singletonBias := by
      rw [List.map_map]
      exact List.map_const' _ _
    rw [hsumvals, List.sum_replicate, List.length_map]
    have hq : (G.length : ℚ) ≠ 0 := by
      simp only [ne_eq, Nat.cast_eq_zero]
      omega
    have havg : (G.length • singletonBias) / (G.length : ℚ) = singletonBias := by
      rw [nsmul_eq_mul]
      field_simp
    rw [havg, List.filter_eq_nil_iff]
    intro b hb
    rw [List.mem_map] at hb
    obtain ⟨pg, _, rfl⟩ := hb
    simp only [decide_eq_true_eq]
    have := singletonBias_pos
    intro hcontra
    nlinarith

/-- The positional_bias entries of the default-positions analysis: one
entry per non-sentinel symbol position, each carrying the constant
singleton bias. -/
theorem posBias_default (seq : List Int) (hne : seq ≠ []) :
    PatternAnalyzer.posBiasOf (PatternAnalyzer.analyze_position_patterns seq none) =
      (groupedForm seq).map (fun pg => (pg.1, singletonBias)) := by
  unfold PatternAnalyzer.analyze_position_patterns
  rw [if_neg hne]
  dsimp only [PatternAnalyzer.posBiasOf]
  simp only [Option.getD_none]
  rw [positionHexagrams_default seq,
    List.Sorted.insertionSort_eq (groupedForm_sorted seq)]
  exact core_biases (groupedForm seq) (groupedForm_mem_shape seq)

/-- The high_bias_positions of the default-positions analysis are
always empty. -/
theorem highBias_default_empty (seq : List Int) (hne : seq ≠ []) :
    PatternAnalyzer.highBiasOf (PatternAnalyzer.analyze_position_patterns seq none) = [] := by
  unfold PatternAnalyzer.analyze_position_patterns
  rw [if_neg hne]
  dsimp only [PatternAnalyzer.highBiasOf]
  simp only [Option.getD_none]
  rw [positionHexagrams_default seq,
    List.Sorted.insertionSort_eq (groupedForm_sorted seq)]
  exact core_highBias (groupedForm seq) (groupedForm_mem_shape seq)

/-- C10 (amended): for a non-empty single sequence analyzed without an
explicit codon_positions argument, every position holding a
non-sentinel symbol receives exactly that one symbol; when no entry is
a sentinel, every position 1..n carries the bias constant
(1 - 1/64)^2 / (1/64); and for every non-empty single sequence
(sentinels or not) the returned high_bias_positions set is empty,
because every recorded bias equals that same positive constant and can
never exceed twice their average. -/
theorem C10_single_sequence_bias (seq : List Int) (hne : seq ≠ []) :
    ((∀ x ∈ seq, 0 < x) →
      PatternAnalyzer.posBiasOf (PatternAnalyzer.analyze_position_patterns seq none) =
        (List.range' 1 seq.length).map (fun p => (p, singletonBias))) ∧
    PatternAnalyzer.highBiasOf (PatternAnalyzer.analyze_position_patterns seq none) = [] := by
  constructor
  · intro hpos
    rw [posBias_default seq hne]
    have hall : groupedForm seq =
        (seq.zip (List.range' 1 seq.length)).map (fun hp => (hp.2, [hp.1])) := by
      unfold groupedForm
      apply filterMap_eq_map_of_all
      intro hp hmem
      rw [if_pos (hpos hp.1 (List.of_mem_zip hmem).1)]
    rw [hall, List.map_map]
    have : ((fun pg : Nat × List Int => (pg.1, singletonBias)) ∘
        (fun hp : Int × Nat => (hp.2, [hp.1]))) =
        ((fun p : Nat => (p, singletonBias)) ∘ (fun hp : Int × Nat => hp.2)) := rfl
    rw [this, ← List.map_map, zip_snd_range' seq]
  · exact highBias_default_empty seq hne

/-- Witness for C10: the amended statement applied at the all-valid
one-element sequence [1]. -/
theorem C10_witness :
    PatternAnalyzer.posBiasOf (PatternAnalyzer.analyze_position_patterns [1] none) =
      (List.range' 1 1).map (fun p => (p, singletonBias)) ∧
    PatternAnalyzer.highBiasOf (PatternAnalyzer.analyze_position_patterns [1] none) = [] :=
  ⟨(C10_single_sequence_bias [1] (by decide)).1 (by decide),
   (C10_single_sequence_bias [1] (by decide)).2⟩

/-! ### Claim C6: conservation analysis -/

theorem foldl_countAdd_const {α : Type} [DecidableEq α] (a : α) :
    ∀ (m k : Nat), (List.replicate m a).foldl countAdd [(a, k)] = [(a, k + m)] := by
  intro m
  induction m with
  | zero => intro k; rfl
  | succ m ih =>
      intro k
      rw [List.replicate_succ, List.foldl_cons]
      have hstep : countAdd [(a, k)] a = [(a, k + 1)] := by
        unfold countAdd
        rw [if_pos (by simp)]
        simp
      rw [hstep, ih (k + 1)]
      have harith : k + 1 + m = k + (m + 1) := by omega
      rw [harith]

theorem counterList_const {α : Type} [DecidableEq α] (l : List α) (a : α)
    (hne : l ≠ []) (hall : ∀ x ∈ l, x = a) :
    counterList l = [(a, l.length)] := by
  obtain ⟨x, rest, rfl⟩ := List.exists_cons_of_ne_nil hne
  have hx : x = a := hall x (by simp)
  subst hx
  have hrest : rest = List.replicate rest.length x :=
    List.eq_replicate_of_mem (fun b hb => hall b (by simp [hb]))
  unfold counterList
  rw [List.foldl_cons]
  have h0 : countAdd ([] : List (α × Nat)) x = [(x, 1)] := rfl
  rw [h0]
  conv_lhs => rw [hrest]
  rw [foldl_countAdd_const x rest.length 1]
  rw [List.length_cons, Nat.add_comm 1 rest.length]

theorem foldl_countAdd_fresh {α : Type} [DecidableEq α] :
    ∀ (l : List α) (acc : List (α × Nat)), l.Nodup →
      (∀ x ∈ l, ∀ p ∈ acc, p.1 ≠ x) →
      l.foldl countAdd acc = acc ++ l.map (fun x => (x, 1)) := by
  intro l
  induction l with
  | nil => intro acc _ _; simp
  | cons x rest ih =>
      intro acc hnd hfresh
      rw [List.nodup_cons] at hnd
      rw [List.foldl_cons]
      have hstep : countAdd acc x = acc ++ [(x, 1)] := by
        unfold countAdd
        rw [if_neg]
        simp only [List.any_eq_true, decide_eq_true_eq, not_exists, not_and]
        intro p hp
        exact hfresh x (by simp) p hp
      rw [hstep, ih (acc ++ [(x, 1)]) hnd.2 ?fresh, List.append_assoc]
      · rfl
      case fresh =>
        intro y hy p hpacc
        rcases List.mem_append.mp hpacc with hin | hin
        · exact hfresh y (by simp [hy]) p hin
        · have hp : p = (x, 1) := by simpa using hin
          rw [hp]
          intro hcontra
          exact hnd.1 (by rw [← hcontra] at hy; exact hy)

theorem counterList_nodup {α : Type} [DecidableEq α] (l : List α) (h : l.Nodup) :
    counterList l = l.map (fun x => (x, 1)) := by
  unfold counterList
  rw [foldl_countAdd_fresh l [] h (by simp)]
  rfl

theorem mostCommon1_ones {α : Type} (l : List α) (q : α) :
    mostCommon1 ((q, 1) :: l.map (fun x => (x, 1))) = some (q, 1) := by
  unfold mostCommon1
  rw [List.foldl_cons]
  show (l.map (fun x => (x, 1))).foldl _ (some (q, 1)) = some (q, 1)
  induction l with
  | nil => rfl
  | cons x rest ih =>
      rw [List.map_cons, List.foldl_cons]
      exact ih

/-- The conservation score `analyze_conservation` records at one
aligned position, when a record exists. -/
def consScoreAt (aligned : List (List Int)) (pos : Nat) : Option ℚ :=
  (PatternAnalyzer.consRecordAt aligned pos).map (·.conservationScore)

theorem consScoreAt_eq (aligned : List (List Int)) (pos : Nat)
    (hne : aligned.filterMap (fun s => s.get? pos) ≠ []) :
    consScoreAt aligned pos = some
      ((((mostCommon1 (counterList (aligned.filterMap (fun s => s.get? pos)))).getD
        (0, 0)).2 : ℚ) /
        ((aligned.filterMap (fun s => s.get? pos)).length : ℚ)) := by
  unfold consScoreAt PatternAnalyzer.consRecordAt
  dsimp only
  rw [if_neg hne]
  rfl

theorem consScoreAt_allEqual (aligned : List (List Int)) (pos : Nat) (a : Int)
    (hne : aligned.filterMap (fun s => s.get? pos) ≠ [])
    (hall : ∀ x ∈ aligned.filterMap (fun s => s.get? pos), x = a) :
    consScoreAt aligned pos = some 1 := by
  rw [consScoreAt_eq aligned pos hne,
    counterList_const (aligned.filterMap (fun s => s.get? pos)) a hne hall]
  have hm : mostCommon1 [(a, (aligned.filterMap (fun s => s.get? pos)).length)] =
      some (a, (aligned.filterMap (fun s => s.get? pos)).length) := rfl
  rw [hm, Option.getD_some]
  have hq : (((aligned.filterMap (fun s => s.get? pos)).length : Nat) : ℚ) ≠ 0 := by
    simp only [ne_eq, Nat.cast_eq_zero]
    intro h0
    exact hne (List.length_eq_zero.mp h0)
  rw [div_self hq]

theorem consScoreAt_nodup (aligned : List (List Int)) (pos : Nat)
    (hne : aligned.filterMap (fun s => s.get? pos) ≠ [])
    (hnd : (aligned.filterMap (fun s => s.get? pos)).Nodup) :
    consScoreAt aligned pos =
      some (1 / ((aligned.filterMap (fun s => s.get? pos)).length : ℚ)) := by
  rw [consScoreAt_eq aligned pos hne, counterList_nodup _ hnd]
  obtain ⟨q, rest, hqr⟩ := List.exists_cons_of_ne_nil hne
  rw [hqr, List.map_cons, mostCommon1_ones rest q, Option.getD_some, ← hqr]
  norm_num

/-- C6 counterexample: the claimed truncation order fails.  On
sequences [[0,1],[2,3]] the code truncates to the shortest RAW length
(2) and sentinel-filters afterwards, yielding aligned sequences
[[1],[2,3]] and two position records, whereas sentinel-filtering first
and then truncating to the shortest filtered length (1) would yield
[[1],[2]] and a single aligned position. -/
theorem C6_counterexample :
    PatternAnalyzer.alignedSeqs [[0, 1], [2, 3]] = [[1], [2, 3]] ∧
    claimAlignedSeqs [[0, 1], [2, 3]] = [[1], [2]] ∧
    PatternAnalyzer.alignedSeqs [[0, 1], [2, 3]] ≠ claimAlignedSeqs [[0, 1], [2, 3]] ∧
    PatternAnalyzer.consPosCount
      (PatternAnalyzer.analyze_conservation [[0, 1], [2, 3]] none) = 2 ∧
    PatternAnalyzer.minRawLen (claimAlignedSeqs [[0, 1], [2, 3]]) = 1 := by
  decide

/-- C6 (amended): analyze_conservation truncates every sequence to the
shortest RAW sequence length and sentinel-filters afterwards (so a
sentinel shifts that sequence's later symbols left instead of being
excluded from the length computation); the alignment_length is that raw
minimum, one record is built per aligned position that still has
sequences present, and each record's conservation_score is the dominant
symbol's count over the number of sequences present there — equal to
1.0 whenever all present sequences agree, and to 1/N when all N
sequences are present and pairwise distinct. -/
theorem C6_conservation_scores (seqs : List (List Int)) (hne : seqs ≠ []) :
    (PatternAnalyzer.alignedSeqs seqs =
      seqs.map (fun s => (s.take (PatternAnalyzer.minRawLen seqs)).filter
        (fun h => decide (0 < h)))) ∧
    (∃ rep, PatternAnalyzer.analyze_conservation seqs none = .ok rep ∧
      rep.alignmentLength = PatternAnalyzer.minRawLen seqs ∧
      rep.positionConservation = (List.range (PatternAnalyzer.minRawLen seqs)).filterMap
        (PatternAnalyzer.consRecordAt (PatternAnalyzer.alignedSeqs seqs))) ∧
    (∀ pos : Nat,
      ((PatternAnalyzer.alignedSeqs seqs).filterMap (fun s => s.get? pos) ≠ [] →
        consScoreAt (PatternAnalyzer.alignedSeqs seqs) pos = some
          ((((mostCommon1 (counterList ((PatternAnalyzer.alignedSeqs seqs).filterMap
            (fun s => s.get? pos)))).getD (0, 0)).2 : ℚ) /
            (((PatternAnalyzer.alignedSeqs seqs).filterMap
              (fun s => s.get? pos)).length : ℚ))) ∧
      (∀ a : Int, (PatternAnalyzer.alignedSeqs seqs).filterMap (fun s => s.get? pos) ≠ [] →
        (∀ x ∈ (PatternAnalyzer.alignedSeqs seqs).filterMap (fun s => s.get? pos), x = a) →
        consScoreAt (PatternAnalyzer.alignedSeqs seqs) pos = some 1) ∧
      (((PatternAnalyzer.alignedSeqs seqs).filterMap (fun s => s.get? pos)).Nodup →
        ((PatternAnalyzer.alignedSeqs seqs).filterMap (fun s => s.get? pos)).length =
          seqs.length →
        consScoreAt (PatternAnalyzer.alignedSeqs seqs) pos =
          some (1 / (seqs.length : ℚ)))) := by
  refine ⟨rfl, ?_, ?_⟩
  · unfold PatternAnalyzer.analyze_conservation
    rw [if_neg hne]
    dsimp only
    rw [if_neg (by simp : ¬ (((none : Option (List String)).getD
      ((List.range seqs.length).map (fun i => "Sequence_" ++ toString (i + 1)))).length ≠
        seqs.length))]
    exact ⟨_, rfl, rfl, rfl⟩
  · intro pos
    refine ⟨fun hpne => consScoreAt_eq _ pos hpne, ?_, ?_⟩
    · intro a hpne hall
      exact consScoreAt_allEqual _ pos a hpne hall
    · intro hnd hlen
      have hpne : (PatternAnalyzer.alignedSeqs seqs).filterMap (fun s => s.get? pos) ≠ [] := by
        intro h0
        rw [h0] at hlen
        simp only [List.length_nil] at hlen
        exact hne (List.length_eq_zero.mp hlen.symm)
      rw [consScoreAt_nodup _ pos hpne hnd, hlen]

/-- Witness for C6: two sequences [[1,1],[1,2]] — at aligned position 1
all sequences agree (score 1), at aligned position 2 both sequences are
present and differ (score 1/2). -/
theorem C6_witness :
    consScoreAt (PatternAnalyzer.alignedSeqs [[1, 1], [1, 2]]) 0 = some 1 ∧
    consScoreAt (PatternAnalyzer.alignedSeqs [[1, 1], [1, 2]]) 1 =
      some (1 / ((([[1, 1], [1, 2]] : List (List Int))).length : ℚ)) := by
  have h := C6_conservation_scores [[1, 1], [1, 2]] (by decide)
  exact ⟨(h.2.2 0).2.1 1 (by decide) (by decide), (h.2.2 1).2.2 (by decide) (by decide)⟩

/-! ### Claim C8: run detection -/

theorem drop_cons_facts (seq : List Int) (i : Nat) (h : Int) (rest : List Int)
    (hd : seq.drop i = h :: rest) :
    i < seq.length ∧ seq.get? i = some h ∧ seq.drop (i + 1) = rest := by
  have hlen : i < seq.length := by
    have hl := congrArg List.length hd
    rw [List.length_drop, List.length_cons] at hl
    omega
  have hcons := List.drop_eq_getElem_cons hlen
  rw [hd] at hcons
  injection hcons with h1 h2
  refine ⟨hlen, ?_, h2.symm⟩
  rw [List.get?_eq_getElem?, List.getElem?_eq_getElem hlen, ← h1]

/-- The loop invariant of `detect_hexagram_run` after `i` processed
elements: when a run is open, its symbol is positive, it covers
exactly the slots from its start up to `i`, and the element before its
start (if any) differs from its symbol; when no run is open, the run
length is 0 and the previous element (if any) was a sentinel. -/
def RunStateInv (seq : List Int) (i : Nat) (cur : Option Int) (start len : Nat) : Prop :=
  (∀ hh : Int, cur = some hh → 0 < hh ∧ 1 ≤ len ∧ start + len = i ∧
     (∀ k, k < len → seq.get? (start + k) = some hh) ∧
     (start = 0 ∨ ∀ x : Int, seq.get? (start - 1) = some x → x ≠ hh)) ∧
  (cur = none → len = 0 ∧ (i = 0 ∨ ∀ x : Int, seq.get? (i - 1) = some x → x ≤ 0))

theorem emit_good (seq : List Int) (minLen : Nat) (hm : 1 ≤ minLen)
    (i start len : Nat) (cur : Option Int)
    (hinv : RunStateInv seq i cur start len) (hminlen : minLen ≤ len)
    (hiseq : i ≤ seq.length)
    (hafter : i = seq.length ∨
      ∀ x : Int, seq.get? i = some x → x ≤ 0 ∨ ∀ hh : Int, cur = some hh → x ≠ hh) :
    PatternAnalyzer.GoodRun seq minLen ⟨cur, start + 1, i, len⟩ := by
  cases cur with
  | none =>
      exfalso
      have h0 := hinv.2 rfl
      omega
  | some hh =>
      obtain ⟨hpos, hlen1, hsum, hcov, hbefore⟩ := hinv.1 hh rfl
      refine ⟨rfl, hpos, hminlen, ?_, ?_, ?_, ?_, ?_, ?_⟩
      · show 1 ≤ start + 1
        omega
      · show i = start + 1 - 1 + len
        omega
      · show i ≤ seq.length
        exact hiseq
      · intro k hk
        have hk' : k < len := hk
        show seq.get? (start + 1 - 1 + k) = some ((some hh).getD 0)
        have hidx : start + 1 - 1 + k = start + k := by omega
        rw [hidx, Option.getD_some]
        exact hcov k hk'
      · rcases hbefore with h0 | hb
        · exact Or.inl (show start + 1 = 1 by omega)
        · refine Or.inr (fun x hx => ?_)
          have hx0 : seq.get? (start + 1 - 2) = some x := hx
          have hidx : start + 1 - 2 = start - 1 := by omega
          rw [hidx] at hx0
          exact hb x hx0
      · rcases hafter with he | hf
        · exact Or.inl he
        · refine Or.inr (fun x hx => ?_)
          have hx0 : seq.get? i = some x := hx
          rcases hf x hx0 with hle | hne
          · show x ≠ (some hh).getD 0
            rw [Option.getD_some]
            intro hc
            rw [hc] at hle
            omega
          · exact hne hh rfl

theorem detectLoop_good (seq : List Int) (minLen : Nat) (hm : 1 ≤ minLen) :
    ∀ (l : List Int) (i : Nat) (cur : Option Int) (start len : Nat)
      (runs : List PatternAnalyzer.RunRec),
      seq.drop i = l →
      i + l.length = seq.length →
      (∀ r ∈ runs, PatternAnalyzer.GoodRun seq minLen r) →
      RunStateInv seq i cur start len →
      ∀ r ∈ PatternAnalyzer.detectLoop minLen l i cur start len runs,
        PatternAnalyzer.GoodRun seq minLen r := by
  intro l
  induction l with
  | nil =>
      intro i cur start len runs hd hilen hruns hinv r hr
      have hi : i = seq.length := by
        rw [List.length_nil] at hilen
        omega
      simp only [PatternAnalyzer.detectLoop] at hr
      by_cases hemit : minLen ≤ len
      · rw [if_pos hemit] at hr
        rcases List.mem_append.mp hr with hold | hnew
        · exact hruns r hold
        · have hr' : r = ⟨cur, start + 1, i, len⟩ := by simpa using hnew
          rw [hr']
          exact emit_good seq minLen hm i start len cur hinv hemit (by omega) (Or.inl hi)
      · rw [if_neg hemit] at hr
        exact hruns r hr
  | cons h rest ih =>
      intro i cur start len runs hd hilen hruns hinv r hr
      obtain ⟨hiL, hgeti, hdrop'⟩ := drop_cons_facts seq i h rest hd
      rw [List.length_cons] at hilen
      simp only [PatternAnalyzer.detectLoop] at hr
      by_cases hsent : h ≤ 0
      · rw [if_pos hsent] at hr
        refine ih (i + 1) none start 0 _ hdrop' (by omega) ?_ ?_ r hr
        · intro r' hr'
          by_cases hemit : minLen ≤ len
          · rw [if_pos hemit] at hr'
            rcases List.mem_append.mp hr' with hold | hnew
            · exact hruns r' hold
            · have hr'' : r' = ⟨cur, start + 1, i, len⟩ := by simpa using hnew
              rw [hr'']
              refine emit_good seq minLen hm i start len cur hinv hemit (by omega)
                (Or.inr (fun x hx => Or.inl ?_))
              rw [hgeti] at hx
              injection hx with hxe
              omega
          · rw [if_neg hemit] at hr'
            exact hruns r' hr'
        · refine ⟨fun hh heq => by simp at heq, fun _ => ⟨rfl, Or.inr ?_⟩⟩
          intro x hx
          have hidx : i + 1 - 1 = i := by omega
          rw [hidx, hgeti] at hx
          injection hx with hxe
          omega
      · by_cases hmatch : some h = cur
        · rw [if_neg hsent, if_pos hmatch] at hr
          obtain rfl : cur = some h := hmatch.symm
          obtain ⟨hpos, hlen1, hsum, hcov, hbef⟩ := hinv.1 h rfl
          refine ih (i + 1) (some h) start (len + 1) runs hdrop' (by omega) hruns ?_ r hr
          refine ⟨fun hh heq => ?_, fun heq => by simp at heq⟩
          have hhh : hh = h := by
            injection heq with he
            exact he.symm
          subst hhh
          refine ⟨hpos, by omega, by omega, ?_, hbef⟩
          intro k hk
          by_cases hkl : k < len
          · exact hcov k hkl
          · have hke : k = len := by omega
            rw [hke]
            have hidx : start + len = i := hsum
            rw [hidx]
            exact hgeti
        · rw [if_neg hsent, if_neg hmatch] at hr
          refine ih (i + 1) (some h) i 1 _ hdrop' (by omega) ?_ ?_ r hr
          · intro r' hr'
            by_cases hemit : minLen ≤ len
            · rw [if_pos hemit] at hr'
              rcases List.mem_append.mp hr' with hold | hnew
              · exact hruns r' hold
              · have hr'' : r' = ⟨cur, start + 1, i, len⟩ := by simpa using hnew
                rw [hr'']
                refine emit_good seq minLen hm i start len cur hinv hemit (by omega)
                  (Or.inr (fun x hx => Or.inr (fun hh heq => ?_)))
                rw [hgeti] at hx
                injection hx with hxe
                intro hc
                apply hmatch
                rw [heq, hxe, hc]
            · rw [if_neg hemit] at hr'
              exact hruns r' hr'
          · refine ⟨fun hh heq => ?_, fun heq => by simp at heq⟩
            have hhh : hh = h := by
              injection heq with he
              exact he.symm
            subst hhh
            refine ⟨by omega, le_refl 1, by omega, ?_, ?_⟩
            · intro k hk
              have hk0 : k = 0 := by omega
              rw [hk0, Nat.add_zero]
              exact hgeti
            · cases i with
              | zero => exact Or.inl rfl
              | succ j =>
                  refine Or.inr (fun x hx => ?_)
                  have hidx : j + 1 - 1 = j := by omega
                  rw [hidx] at hx
                  cases cur with
                  | some hh2 =>
                      obtain ⟨hpos', hlen1', hsum', hcov', _⟩ := hinv.1 hh2 rfl
                      have hj : start + (len - 1) = j := by omega
                      have hcj := hcov' (len - 1) (by omega)
                      rw [hj] at hcj
                      rw [hcj] at hx
                      injection hx with hxe
                      intro hc
                      apply hmatch
                      rw [← hc, hxe]
                  | none =>
                      obtain ⟨_, hprev⟩ := hinv.2 rfl
                      rcases hprev with h0 | hp
                      · omega
                      · have hidx2 : j + 1 - 1 = j := by omega
                        have := hp x (by rw [hidx2]; exact hx)
                        intro hc
                        omega

/-- C8 counterexample: with min_run_length = 0 the loop emits a
degenerate record whose hexagram is None (length 0, end before start),
which is not a stretch of one repeated non-sentinel symbol. -/
theorem C8_counterexample :
    PatternAnalyzer.runsOf (PatternAnalyzer.detect_hexagram_run [5] 0) =
      [⟨none, 1, 0, 0⟩, ⟨some 5, 1, 1, 1⟩] ∧
    (⟨none, 1, 0, 0⟩ : PatternAnalyzer.RunRec) ∈
      PatternAnalyzer.runsOf (PatternAnalyzer.detect_hexagram_run [5] 0) ∧
    (⟨none, 1, 0, 0⟩ : PatternAnalyzer.RunRec).hexagram = none ∧
    ¬ PatternAnalyzer.GoodRun [5] 0 ⟨none, 1, 0, 0⟩ := by
  refine ⟨by decide, by decide, rfl, ?_⟩
  intro hgood
  exact Option.noConfusion hgood.1

/-- C8 (amended): for min_run_length at least 1, every run record of
detect_hexagram_run names one positive (non-sentinel) hexagram, has
length at least min_run_length, carries consistent inclusive 1-indexed
bounds (end = start - 1 + length, inside the sequence), covers only
positions holding exactly that hexagram, and is maximal — the element
before the run and the element after it (when they exist) differ from
the run's hexagram, so in particular a sentinel terminates a run
without extending it.  The claim's scenario holds: the three identical
codons of "AAAAAAAAA" with min_run_length 2 give exactly one run over
positions 1-3 with length 3. -/
theorem C8_detect_runs :
    (∀ (seq : List Int) (minLen : Nat), 1 ≤ minLen →
      ∀ r ∈ PatternAnalyzer.runsOf (PatternAnalyzer.detect_hexagram_run seq minLen),
        PatternAnalyzer.GoodRun seq minLen r) ∧
    PatternAnalyzer.detect_hexagram_run
      (CodonTranslator.translate_sequence (CodonTranslator.BINARY_SCHEMES "scheme_1")
        ("AAAAAAAAA".toList)) 2 = .ok ⟨2, 1, [⟨some 1, 1, 3, 3⟩]⟩ := by
  constructor
  · intro seq minLen hm r hr
    unfold PatternAnalyzer.detect_hexagram_run at hr
    by_cases hs : seq = []
    · rw [if_pos hs] at hr
      exact absurd hr (by simp [PatternAnalyzer.runsOf])
    · rw [if_neg hs] at hr
      dsimp only [PatternAnalyzer.runsOf] at hr
      refine detectLoop_good seq minLen hm seq 0 none 0 0 [] rfl (by simp)
        (by simp) ⟨fun hh heq => by simp at heq, fun _ => ⟨rfl, Or.inl rfl⟩⟩ r hr
  · decide

/-- Witness for C8: the amended statement applied to the sequence
[5, 5] with min_run_length 1, whose single run covers both positions. -/
theorem C8_witness : [5, 5].get? 0 = some (5 : Int) ∧ (1 : Nat) ≤ 2 := by
  have hg := C8_detect_runs.1 [5, 5] 1 (by decide) ⟨some 5, 1, 2, 2⟩ (by decide)
  obtain ⟨h1, h2, h3, h4, h5, h6, hcov, h8, h9⟩ := hg
  refine ⟨?_, h3⟩
  exact hcov 0 (by omega)

end GCode
